import Mathlib

/-!
Verification of the self-contained core of the seedkit repository
(`main.go`): the BIP39 partial-mnemonic checksum completion algorithm
(`bip39Entropy`, `bip39ChecksumWords`), the flat word-list reconstructor
(`convertWordsToShares`), the input normalizer (`readShareMnemonics`) and
the group-specification parser (`parseGroups`).

Shallow embedding conventions:
- Go `[]string` becomes `List String`; Go `*big.Int` (non-negative here)
  becomes `Nat`; byte slices become `List Nat` whose entries are below 256.
- Fallible Go code returns `Except GoError _`; a Go runtime panic (such as
  an out-of-range slice index) is modelled as `GoError.goPanic`, distinct
  from an ordinary returned `error` (`GoError.goError`).
- The external BIP39 vocabulary (`bip39.GetWordList` /
  `bip39.GetWordIndex` from the collaborator library) is an explicit
  parameter `wl : List String`; the word-to-index map lookup is modelled
  as a first-index search over that list.
- `crypto/sha256` is embedded as an executable `sha256` over byte lists.
-/

namespace Seedkit

/-- Errors produced by the embedded Go code: `goError` models a returned
`error` value, `goPanic` models a Go runtime panic. -/
inductive GoError where
  | goError (msg : String)
  | goPanic (msg : String)
deriving DecidableEq, Repr

/-! ### Generic list chunking

Models the Go loop `for i := 0; i < len(words); i += mlen` that slices
`words[i : i+mlen]`.  The `0, _ :: _` case is unreachable in the embedded
code (the chunk size is always 20 or 33). -/

/-- Fuel-driven worker for `chunksOf`, structurally recursive so that it
reduces inside the kernel; the fuel bounds the number of chunks produced. -/
def chunksOfFuel {α : Type} : Nat → Nat → List α → List (List α)
  | _, _, [] => []
  | 0, _, _ :: _ => []
  | _ + 1, 0, _ :: _ => []
  | fuel + 1, n + 1, x :: xs =>
    (x :: xs).take (n + 1) :: chunksOfFuel fuel (n + 1) ((x :: xs).drop (n + 1))

/-- Partition a list into consecutive chunks of size `n` (last chunk may be
shorter when `n` does not divide the length; the embedded code only uses
exact divisors).  The list length is always enough fuel. -/
def chunksOf {α : Type} (n : Nat) (l : List α) : List (List α) :=
  chunksOfFuel l.length n l

/-! ### SHA-256 (crypto/sha256), over byte lists -/

/-- Truncate to a 32-bit word. -/
def wmod (x : Nat) : Nat := x % 4294967296

/-- Rotate a 32-bit word right by `n` bits. -/
def rotr (n x : Nat) : Nat := wmod ((x >>> n) ||| (x <<< (32 - n)))

/-- Bitwise complement of a 32-bit word. -/
def wnot (x : Nat) : Nat := x ^^^ 4294967295

/-- SHA-256 Ch function. -/
def ch (x y z : Nat) : Nat := (x &&& y) ^^^ (wnot x &&& z)

/-- SHA-256 Maj function. -/
def maj (x y z : Nat) : Nat := (x &&& y) ^^^ (x &&& z) ^^^ (y &&& z)

/-- SHA-256 big sigma-0. -/
def bsig0 (x : Nat) : Nat := rotr 2 x ^^^ rotr 13 x ^^^ rotr 22 x

/-- SHA-256 big sigma-1. -/
def bsig1 (x : Nat) : Nat := rotr 6 x ^^^ rotr 11 x ^^^ rotr 25 x

/-- SHA-256 small sigma-0. -/
def ssig0 (x : Nat) : Nat := rotr 7 x ^^^ rotr 18 x ^^^ (x >>> 3)

/-- SHA-256 small sigma-1. -/
def ssig1 (x : Nat) : Nat := rotr 17 x ^^^ rotr 19 x ^^^ (x >>> 10)

/-- SHA-256 round constants. -/
def shaK : List Nat :=
  [1116352408, 1899447441, 3049323471, 3921009573, 961987163,
   1508970993, 2453635748, 2870763221, 3624381080, 310598401,
   607225278, 1426881987, 1925078388, 2162078206, 2614888103,
   3248222580, 3835390401, 4022224774, 264347078, 604807628,
   770255983, 1249150122, 1555081692, 1996064986, 2554220882,
   2821834349, 2952996808, 3210313671, 3336571891, 3584528711,
   113926993, 338241895, 666307205, 773529912, 1294757372,
   1396182291, 1695183700, 1986661051, 2177026350, 2456956037,
   2730485921, 2820302411, 3259730800, 3345764771, 3516065817,
   3600352804, 4094571909, 275423344, 430227734, 506948616,
   659060556, 883997877, 958139571, 1322822218, 1537002063,
   1747873779, 1955562222, 2024104815, 2227730452, 2361852424,
   2428436474, 2756734187, 3204031479, 3329325298]

/-- SHA-256 initial hash state. -/
def shaH0 : List Nat :=
  [1779033703, 3144134277, 1013904242, 2773480762,
   1359893119, 2600822924, 528734635, 1541459225]

/-- Big-endian bytes (most significant first) of a value, `size` bytes. -/
def beBytes (size n : Nat) : List Nat :=
  (List.range size).map (fun k => (n >>> (8 * (size - 1 - k))) % 256)

/-- Assemble a 4-byte big-endian chunk into a 32-bit word. -/
def word32OfBytes (bs : List Nat) : Nat :=
  bs.foldl (fun a b => a * 256 + b) 0

/-- Extend a 16-word message block schedule by `t` further words. -/
def extendSchedule (w : List Nat) : Nat → List Nat
  | 0 => w
  | t + 1 =>
    let prev := extendSchedule w t
    let j := 16 + t
    prev ++ [wmod (ssig1 (prev.getD (j - 2) 0) + prev.getD (j - 7) 0 +
      ssig0 (prev.getD (j - 15) 0) + prev.getD (j - 16) 0)]

/-- One SHA-256 compression round: state is `[a,b,c,d,e,f,g,h]`,
`kw` the round constant paired with the schedule word. -/
def shaRound (st : List Nat) (kw : Nat × Nat) : List Nat :=
  let a := st.getD 0 0
  let b := st.getD 1 0
  let c := st.getD 2 0
  let d := st.getD 3 0
  let e := st.getD 4 0
  let f := st.getD 5 0
  let g := st.getD 6 0
  let h := st.getD 7 0
  let t1 := wmod (h + bsig1 e + ch e f g + kw.1 + kw.2)
  let t2 := wmod (bsig0 a + maj a b c)
  [wmod (t1 + t2), a, b, c, wmod (d + t1), e, f, g]

/-- Compress one 64-byte block into the running hash state. -/
def shaBlock (st : List Nat) (block : List Nat) : List Nat :=
  let w := extendSchedule ((chunksOf 4 block).map word32OfBytes) 48
  let fin := (shaK.zip w).foldl shaRound st
  (st.zip fin).map (fun p => wmod (p.1 + p.2))

/-- SHA-256 padding: append `0x80`, zero bytes, and the 8-byte big-endian
bit length, reaching a multiple of 64 bytes. -/
def shaPad (msg : List Nat) : List Nat :=
  let l := msg.length
  let k := (64 + 56 - (l + 1) % 64) % 64
  msg ++ [0x80] ++ List.replicate k 0 ++ beBytes 8 (8 * l)

/-- SHA-256 of a byte list, producing the 32-byte digest. -/
def sha256 (msg : List Nat) : List Nat :=
  let final := (chunksOf 64 (shaPad msg)).foldl shaBlock shaH0
  final.flatMap (fun w => beBytes 4 w)

/-! ### Word index codec and BIP39 checksum completion -/

/-- Models the external collaborator `bip39.GetWordIndex`: look up a word's
index in the vocabulary, reporting failure when the word is absent. -/
def getWordIndex (wl : List String) (w : String) : Option Nat :=
  if w ∈ wl then some (List.indexOf w wl) else none

/-- Worker for `bip39Entropy` (main.go): the Go loop packs the 11-bit index
of each word, most significant word first, into one arbitrary-precision
value via `Lsh`/`Or`; the early `return` on an unknown word becomes the
error case. -/
def packWords (wl : List String) (acc : Nat) : List String → Except GoError Nat
  | [] => .ok acc
  | w :: ws =>
    match getWordIndex wl w with
    | none => .error (.goError ("invalid mnemonic word \"" ++ w ++ "\""))
    | some idx => packWords wl ((acc <<< 11) ||| idx) ws

/-- Embeds `bip39Entropy` (main.go). -/
def bip39Entropy (wl : List String) (pwords : List String) : Except GoError Nat :=
  packWords wl 0 pwords

/-- One iteration of the `bip39ChecksumWords` loop (main.go): hash the
candidate entropy, derive the checksum from the top bits of the first
digest byte, and look the final word up in the vocabulary; an out-of-range
`wordlist[idx]` access is a Go runtime panic. -/
def completionStep (wl : List String)
    (checksumBits entropySize entropyBase : Nat) (i : Nat) :
    Except GoError String :=
  let entropyBytes := beBytes entropySize (entropyBase + i)
  let hash := sha256 entropyBytes
  let checksum := hash.headD 0 >>> (8 - checksumBits)
  let idx := (i <<< checksumBits) + checksum
  match wl[idx]? with
  | some w => Except.ok w
  | none => Except.error (.goPanic "index out of range")

/-- Embeds `bip39ChecksumWords` (main.go).  `big.Int.FillBytes` is `beBytes`
(the candidate always fits in `entropySize` bytes for the 11- and 23-word
phrases this is called on); `int(math.Pow(2, float64(entropyToFill)))` is
exactly `2 ^ entropyToFill` for the exponents that occur; the loop that
keeps incrementing `entropyCandidate` becomes a map over `List.range`
hashing `entropyBase + i`; out-of-range `wordlist[idx]` indexing is a Go
runtime panic. -/
def bip39ChecksumWords (wl : List String) (pwords : List String) :
    Except GoError (List String) :=
  match bip39Entropy wl pwords with
  | .error e => .error e
  | .ok entropy =>
    let size := pwords.length + 1
    let checksumBits := size / 3
    let entropySize := (size * 11 - checksumBits) / 8
    let entropyToFill := 11 - checksumBits
    let entropyBase := entropy <<< entropyToFill
    let iterations := 2 ^ entropyToFill
    (List.range iterations).mapM
      (completionStep wl checksumBits entropySize entropyBase)

/-- Spec-side packing of a phrase into its entropy-plus-checksum value: the
same 11-bit packing `bip39Entropy` performs, as a total function (each
word's index taken by `List.indexOf`). -/
def packIndices (wl : List String) (phrase : List String) : Nat :=
  phrase.foldl (fun acc w => (acc <<< 11) ||| List.indexOf w wl) 0

/-- Spec-side checksum validity of a full phrase (the checksum-bit equality
check that unit tests use in place of the external `isPhraseValid`): the
trailing `checksumBits` bits of the packed phrase equal the top
`checksumBits` bits of the first byte of SHA-256 of the entropy bytes. -/
def phraseChecksumValid (wl : List String) (phrase : List String) : Bool :=
  let size := phrase.length
  let checksumBits := size / 3
  let entropySize := (size * 11 - checksumBits) / 8
  let packed := packIndices wl phrase
  packed % 2 ^ checksumBits ==
    (sha256 (beBytes entropySize (packed >>> checksumBits))).headD 0 >>>
      (8 - checksumBits)

/-- Number of checksum bits of the full phrase completing `pwords`. -/
def csBits (pwords : List String) : Nat := (pwords.length + 1) / 3

/-- Checksum value the completion algorithm derives for enumeration index
`i`: top `csBits` bits of the first byte of SHA-256 over the big-endian
rendering of `(packedEntropy <<< unknownBits) + i`. -/
def csVal (wl : List String) (pwords : List String) (i : Nat) : Nat :=
  (sha256 (beBytes (((pwords.length + 1) * 11 - csBits pwords) / 8)
    ((packIndices wl pwords <<< (11 - csBits pwords)) + i))).headD 0 >>>
    (8 - csBits pwords)

/-! ### Share normalization -/

/-- Embeds `convertWordsToShares` (main.go): regroup a flat word list into
share mnemonics of uniform length 33 or 20. -/
def convertWordsToShares (words : List String) : Except GoError (List String) :=
  if words.length = 0 then .error (.goError "no SLIP39 mnemonic words provided")
  else
    let mlen := if words.length % 33 = 0 then 33
      else if words.length % 20 = 0 then 20 else 0
    if mlen = 0 then
      .error (.goError ("invalid SLIP39 word list length - " ++
        toString words.length ++ " is not a multiple of 33 or 20"))
    else .ok ((chunksOf mlen words).map (fun c => String.intercalate " " c))

/-- Models `strings.ToLower` (ASCII fragment, all the call sites use),
written over the character list so that it evaluates in the kernel. -/
def goToLower (s : String) : String := String.mk (s.toList.map Char.toLower)

/-- Models `strings.TrimSpace`: remove leading and trailing whitespace. -/
def goTrim (s : String) : String :=
  String.mk
    (((s.toList.dropWhile Char.isWhitespace).reverse.dropWhile
      Char.isWhitespace).reverse)

/-- Models `strings.Contains(s, " ")`: a one-character substring occurs
exactly when the character does. -/
def goContainsSpace (s : String) : Bool := s.toList.contains ' '

/-- Models `strings.Join(args, " ")`. -/
def goJoin (args : List String) : String := String.intercalate " " args

/-- Embeds `readShareMnemonics` (main.go).  The auxiliary line source
(`ctx.reader`, read line-by-line by `bufio.Scanner`) is modelled as the
list of its lines; `strings.TrimSpace` is `goTrim`.  In the Go code
the line source is consulted exactly when `len(args)` is zero, so the three
branches below reproduce the control flow.  Accessing `mnemonics[0]` when
no content arrived from any source is a Go runtime panic. -/
def readShareMnemonics (lines : List String) (args : List String) :
    Except GoError (List String) :=
  let mnemonics : List String :=
    if 0 < args.length ∧ args.length < 20 then args.map goToLower
    else if 20 ≤ args.length then [goToLower (goJoin args)]
    else lines.map (fun l => goToLower (goTrim l))
  match mnemonics with
  | [] => .error (.goPanic "index out of range")
  | m0 :: rest =>
    if goContainsSpace (goTrim m0) then .ok (m0 :: rest)
    else convertWordsToShares (m0 :: rest)

/-! ### Group specification parsing -/

/-- Mirror of the `GroupLimit` constant (main.go). -/
def GroupLimit : Nat := 16

/-- Value of a run of decimal digits (`strconv.Atoi` on a regex submatch). -/
def digitsVal (cs : List Char) : Nat :=
  cs.foldl (fun a c => a * 10 + (c.toNat - 48)) 0

/-- Models `reGroup.FindStringSubmatch` for the anchored pattern of one or
two digits, then `of`, then one or two digits, returning the two numeric
submatches.  Since `o` and `f` are not digits the leading digit run of any
match is the maximal one, so the regex match is equivalent to this direct
decomposition. -/
def matchGroupToken (g : String) : Option (Nat × Nat) :=
  let cs := g.toList
  let ds := cs.takeWhile Char.isDigit
  let rest := cs.dropWhile Char.isDigit
  if 1 ≤ ds.length ∧ ds.length ≤ 2 then
    match rest with
    | 'o' :: 'f' :: ds2 =>
      if 1 ≤ ds2.length ∧ ds2.length ≤ 2 ∧ ds2.all Char.isDigit then
        some (digitsVal ds, digitsVal ds2)
      else none
    | _ => none
  else none

/-- One iteration of the `parseGroups` loop (main.go): match the token
against the pattern, bound-check, and build the pair;
`slip39.MemberGroupParameters` becomes a `(threshold, count)` pair. -/
def parseGroupToken (g : String) : Except GoError (Nat × Nat) :=
  match matchGroupToken g with
  | none =>
    Except.error (.goError ("invalid group definition: \"" ++ g ++ "\""))
  | some (t, n) =>
    if t > GroupLimit ∨ n > GroupLimit ∨ t > n then
      Except.error (.goError ("invalid group format: \"" ++ g ++
        "\" (not \"MofN\", M <= N, N <= " ++ toString GroupLimit ++ ")"))
    else Except.ok (t, n)

/-- Embeds `parseGroups` (main.go): the loop appending one parsed pair per
token, stopping at the first rejected token. -/
def parseGroups (groupstr : List String) : Except GoError (List (Nat × Nat)) :=
  groupstr.mapM parseGroupToken

/-! ### Statement-side helper definitions -/

/-- A group token is accepted: it matches the pattern and passes the bound
checks in `parseGroups`. -/
def groupTokenOK (g : String) : Bool :=
  match matchGroupToken g with
  | none => false
  | some (t, n) => decide (t ≤ GroupLimit ∧ n ≤ GroupLimit ∧ t ≤ n)

/-- The threshold/count pair an accepted group token parses to. -/
def groupTokenVal (g : String) : Nat × Nat := (matchGroupToken g).getD (0, 0)

/-- The error message `parseGroups` produces for a rejected token; both
branches quote the offending token verbatim. -/
def groupTokenMsg (g : String) : String :=
  match matchGroupToken g with
  | none => "invalid group definition: \"" ++ g ++ "\""
  | some _ => "invalid group format: \"" ++ g ++
      "\" (not \"MofN\", M <= N, N <= " ++ toString GroupLimit ++ ")"

/-- A concrete 2048-entry vocabulary for instantiating the completion
theorems: word `n` is the letter `a` repeated `n` times. -/
def vocabW : List String :=
  (List.range 2048).map (fun n => String.mk (List.replicate n 'a'))

/-! ### Sanity checks of the embedding on concrete values -/

set_option maxRecDepth 4000 in
example : sha256 [] =
    [0xe3, 0xb0, 0xc4, 0x42, 0x98, 0xfc, 0x1c, 0x14, 0x9a, 0xfb, 0xf4, 0xc8,
     0x99, 0x6f, 0xb9, 0x24, 0x27, 0xae, 0x41, 0xe4, 0x64, 0x9b, 0x93, 0x4c,
     0xa4, 0x95, 0x99, 0x1b, 0x78, 0x52, 0xb8, 0x55] := by decide

set_option maxRecDepth 4000 in
example : sha256 [0x61, 0x62, 0x63] =
    [0xba, 0x78, 0x16, 0xbf, 0x8f, 0x01, 0xcf, 0xea, 0x41, 0x41, 0x40, 0xde,
     0x5d, 0xae, 0x22, 0x23, 0xb0, 0x03, 0x61, 0xa3, 0x96, 0x17, 0x7a, 0x9c,
     0xb4, 0x10, 0xff, 0x61, 0xf2, 0x00, 0x15, 0xad] := by decide

set_option maxRecDepth 4000 in
example : (sha256 (beBytes 16 0)).headD 0 >>> 4 = 3 := by decide

example : matchGroupToken "2of3" = some (2, 3) := by decide
example : matchGroupToken "0of1" = some (0, 1) := by decide
example : matchGroupToken "123of4" = none := by decide
example : matchGroupToken "12of34" = some (12, 34) := by decide
example : matchGroupToken "2of" = none := by decide
example : matchGroupToken "of3" = none := by decide
example : parseGroups ["2of3", "3of5"] = .ok [(2, 3), (3, 5)] := rfl
example : convertWordsToShares ["a", "b"] =
    .error (.goError "invalid SLIP39 word list length - 2 is not a multiple of 33 or 20") := rfl
example : readShareMnemonics [] ["A b", "c D"] = .ok ["a b", "c d"] := rfl

example : readShareMnemonics ["  a  B ", "c d"] [] = .ok ["a  b", "c d"] := rfl

example : readShareMnemonics [] [] = .error (.goPanic "index out of range") := rfl

/-! ### Helper lemmas: mapM over Except -/

theorem except_mapM_ok {α β ε : Type} (f : α → Except ε β) (g : α → β) :
    ∀ l : List α, (∀ a ∈ l, f a = .ok (g a)) → l.mapM f = .ok (l.map g) := by
  intro l
  induction l with
  | nil => intro _; rfl
  | cons a l ih =>
    intro h
    rw [List.mapM_cons, h a (List.mem_cons_self a l),
      ih (fun x hx => h x (List.mem_cons_of_mem a hx))]
    rfl

theorem except_mapM_error {α β ε : Type} (f : α → Except ε β) (g : α → β)
    (e : ε) :
    ∀ (pre : List α) (b : α) (post : List α),
      (∀ a ∈ pre, f a = .ok (g a)) → f b = .error e →
      (pre ++ b :: post).mapM f = .error e := by
  intro pre
  induction pre with
  | nil =>
    intro b post _ hb
    rw [List.nil_append, List.mapM_cons, hb]
    rfl
  | cons a pre ih =>
    intro b post h hb
    rw [List.cons_append, List.mapM_cons, h a (List.mem_cons_self a pre),
      ih b post (fun x hx => h x (List.mem_cons_of_mem a hx)) hb]
    rfl

/-! ### Helper lemmas: chunking -/

theorem chunksOfFuel_flatten {α : Type} :
    ∀ (fuel n : Nat) (l : List α), l.length ≤ fuel →
      (chunksOfFuel fuel (n + 1) l).flatten = l := by
  intro fuel
  induction fuel with
  | zero =>
    intro n l hl
    match l with
    | [] => rfl
    | x :: xs => simp at hl
  | succ fuel ih =>
    intro n l hl
    match l with
    | [] => rfl
    | x :: xs =>
      simp only [chunksOfFuel, List.flatten_cons]
      have hd : ((x :: xs).drop (n + 1)).length ≤ fuel := by
        simp only [List.length_drop, List.length_cons]
        simp only [List.length_cons] at hl
        omega
      rw [ih n ((x :: xs).drop (n + 1)) hd, List.take_append_drop]

theorem chunksOf_flatten {α : Type} (n : Nat) (hn : 0 < n) (l : List α) :
    (chunksOf n l).flatten = l := by
  obtain ⟨m, rfl⟩ : ∃ m, n = m + 1 := ⟨n - 1, by omega⟩
  exact chunksOfFuel_flatten l.length m l (Nat.le_refl _)

theorem chunksOfFuel_mem_length {α : Type} :
    ∀ (fuel n : Nat) (l : List α), (n + 1) ∣ l.length → l.length ≤ fuel →
      ∀ c ∈ chunksOfFuel fuel (n + 1) l, c.length = n + 1 := by
  intro fuel
  induction fuel with
  | zero =>
    intro n l _ hl c hc
    match l with
    | [] => simp [chunksOfFuel] at hc
    | x :: xs => simp at hl
  | succ fuel ih =>
    intro n l hdvd hl c hc
    match l with
    | [] => simp [chunksOfFuel] at hc
    | x :: xs =>
      simp only [chunksOfFuel] at hc
      rcases List.mem_cons.mp hc with h | h
      · subst h
        have hle : n + 1 ≤ (x :: xs).length := Nat.le_of_dvd (by simp) hdvd
        rw [List.length_take, Nat.min_eq_left hle]
      · refine ih n _ ?_ ?_ c h
        · rw [List.length_drop]
          exact Nat.dvd_sub' hdvd dvd_rfl
        · rw [List.length_drop]
          simp at hl ⊢
          omega

theorem chunksOf_mem_length {α : Type} (n : Nat) (l : List α) (hn : 0 < n)
    (hdvd : n ∣ l.length) : ∀ c ∈ chunksOf n l, c.length = n := by
  obtain ⟨m, rfl⟩ : ∃ m, n = m + 1 := ⟨n - 1, by omega⟩
  exact chunksOfFuel_mem_length l.length m l hdvd (Nat.le_refl _)

theorem flatten_length_uniform {α : Type} (n : Nat) :
    ∀ wss : List (List α), (∀ ws ∈ wss, ws.length = n) →
      wss.flatten.length = wss.length * n := by
  intro wss
  induction wss with
  | nil => simp
  | cons ws rest ih =>
    intro h
    rw [List.flatten_cons, List.length_append, h ws (List.mem_cons_self _ _),
      ih (fun x hx => h x (List.mem_cons_of_mem _ hx)), List.length_cons]
    ring

theorem chunksOfFuel_uniform {α : Type} :
    ∀ (wss : List (List α)) (fuel n : Nat),
      (∀ ws ∈ wss, ws.length = n + 1) → wss.flatten.length ≤ fuel →
      chunksOfFuel fuel (n + 1) wss.flatten = wss := by
  intro wss
  induction wss with
  | nil =>
    intro fuel n _ _
    match fuel with
    | 0 => rfl
    | _ + 1 => rfl
  | cons ws rest ih =>
    intro fuel n huni hfuel
    have hws : ws.length = n + 1 := huni ws (List.mem_cons_self _ _)
    have hlen : (ws :: rest).flatten.length = ws.length + rest.flatten.length := by
      rw [List.flatten_cons, List.length_append]
    match fuel with
    | 0 =>
      exfalso
      rw [hlen, hws] at hfuel
      omega
    | f + 1 =>
      match ws, hws with
      | y :: ys, hws =>
        rw [List.flatten_cons, List.cons_append]
        simp only [chunksOfFuel]
        rw [← List.cons_append, List.take_left' hws, List.drop_left' hws,
          ih f n (fun x hx => huni x (List.mem_cons_of_mem _ hx)) ?hf]
        case hf =>
          rw [hlen, hws] at hfuel
          omega

theorem chunksOf_flatten_uniform {α : Type} (wss : List (List α)) (n : Nat)
    (hn : 0 < n) (h : ∀ ws ∈ wss, ws.length = n) :
    chunksOf n wss.flatten = wss := by
  obtain ⟨m, rfl⟩ : ∃ m, n = m + 1 := ⟨n - 1, by omega⟩
  exact chunksOfFuel_uniform wss _ m h (Nat.le_refl _)

/-! ### Helper lemmas: convertWordsToShares on uniform share lists -/

theorem convertWords_uniform_33 (wss : List (List String)) (hne : wss ≠ [])
    (h : ∀ ws ∈ wss, ws.length = 33) :
    convertWordsToShares wss.flatten =
      .ok (wss.map (fun c => String.intercalate " " c)) := by
  have hlen : wss.flatten.length = wss.length * 33 := flatten_length_uniform 33 wss h
  have hpos : wss.length ≠ 0 := fun h0 => hne (List.length_eq_zero.mp h0)
  simp only [convertWordsToShares, hlen]
  rw [if_neg (by simp [hpos]), if_pos (Nat.mul_mod_left _ _),
    if_neg (by decide : ¬ (33 : Nat) = 0)]
  rw [chunksOf_flatten_uniform wss 33 (by decide) h]

theorem convertWords_uniform_20 (wss : List (List String)) (hne : wss ≠ [])
    (h : ∀ ws ∈ wss, ws.length = 20) (h33 : ¬ (33 ∣ wss.length)) :
    convertWordsToShares wss.flatten =
      .ok (wss.map (fun c => String.intercalate " " c)) := by
  have hlen : wss.flatten.length = wss.length * 20 := flatten_length_uniform 20 wss h
  have hpos : wss.length ≠ 0 := fun h0 => hne (List.length_eq_zero.mp h0)
  have hmod : ¬ (wss.length * 20) % 33 = 0 := by
    intro h0
    have hdvd : (33 : Nat) ∣ 20 * wss.length := by
      rw [Nat.mul_comm]
      exact Nat.dvd_of_mod_eq_zero h0
    exact h33 ((by decide : Nat.Coprime 33 20).dvd_of_dvd_mul_left hdvd)
  simp only [convertWordsToShares, hlen]
  rw [if_neg (by simp [hpos]), if_neg hmod, if_pos (Nat.mul_mod_left _ _),
    if_neg (by decide : ¬ (20 : Nat) = 0)]
  rw [chunksOf_flatten_uniform wss 20 (by decide) h]

/-! ### Claims C7 and C8: flat word-list reconstruction -/

/-- Claim C7: for every non-empty word list, the chunk size is 33 when the
length is a multiple of 33, else 20 when a multiple of 20, and otherwise
`convertWordsToShares` fails with an invalid-length error citing the actual
word count; on success the output is the input partitioned into consecutive
chunks of the chunk size, each chunk joined with single spaces, in the
original order. -/
theorem claim_C7 (words : List String) (h : words ≠ []) :
    (words.length % 33 = 0 →
      convertWordsToShares words =
        .ok ((chunksOf 33 words).map (fun c => String.intercalate " " c)) ∧
      (chunksOf 33 words).flatten = words ∧
      ∀ c ∈ chunksOf 33 words, c.length = 33) ∧
    (¬ words.length % 33 = 0 → words.length % 20 = 0 →
      convertWordsToShares words =
        .ok ((chunksOf 20 words).map (fun c => String.intercalate " " c)) ∧
      (chunksOf 20 words).flatten = words ∧
      ∀ c ∈ chunksOf 20 words, c.length = 20) ∧
    (¬ words.length % 33 = 0 → ¬ words.length % 20 = 0 →
      convertWordsToShares words =
        .error (.goError ("invalid SLIP39 word list length - " ++
          toString words.length ++ " is not a multiple of 33 or 20"))) := by
  have hne0 : ¬ words.length = 0 := fun h0 => h (List.length_eq_zero.mp h0)
  refine ⟨fun h33 => ⟨?_, ?_, ?_⟩, fun h33 h20 => ⟨?_, ?_, ?_⟩,
    fun h33 h20 => ?_⟩
  · simp only [convertWordsToShares, if_neg hne0, if_pos h33,
      if_neg (by decide : ¬ (33 : Nat) = 0)]
  · exact chunksOf_flatten 33 (by decide) words
  · exact chunksOf_mem_length 33 words (by decide) (Nat.dvd_of_mod_eq_zero h33)
  · simp only [convertWordsToShares, if_neg hne0, if_neg h33, if_pos h20,
      if_neg (by decide : ¬ (20 : Nat) = 0)]
  · exact chunksOf_flatten 20 (by decide) words
  · exact chunksOf_mem_length 20 words (by decide) (Nat.dvd_of_mod_eq_zero h20)
  · simp only [convertWordsToShares, if_neg hne0, if_neg h33, if_neg h20,
      if_pos rfl, if_true]

/-- Witness for C7: the error branch at the concrete one-word input. -/
theorem claim_C7_witness :
    convertWordsToShares ["x"] =
      .error (.goError
        "invalid SLIP39 word list length - 1 is not a multiple of 33 or 20") :=
  (claim_C7 ["x"] (by decide)).2.2 (by decide) (by decide)

/-- Counterexample to claim C8 as stated: 33 shares of 20 words each
flatten to 660 words, which is also a multiple of 33, so the reconstructor
regroups them as 20 shares of 33 words and does not reproduce the input. -/
theorem claim_C8_cex :
    convertWordsToShares (List.replicate 33 (List.replicate 20 "a")).flatten ≠
      .ok ((List.replicate 33 (List.replicate 20 "a")).map
        (fun ws => String.intercalate " " ws)) := by
  intro hbad
  have h1 : convertWordsToShares
      (List.replicate 33 (List.replicate 20 "a")).flatten =
      .ok ((List.replicate 20 (List.replicate 33 "a")).map
        (fun ws => String.intercalate " " ws)) := by
    have hflat : (List.replicate 33 (List.replicate 20 "a")).flatten =
        (List.replicate 20 (List.replicate 33 "a")).flatten := by
      simp [List.flatten_replicate_replicate]
    rw [hflat]
    exact convertWords_uniform_33 _ (by decide) (fun ws hws => by
      rw [List.eq_of_mem_replicate hws, List.length_replicate])
  rw [h1] at hbad
  have hinj := Except.ok.inj hbad
  have hlen := congrArg List.length hinj
  simp only [List.length_map, List.length_replicate] at hlen
  exact absurd hlen (by decide)

/-- Claim C8 (amended): flattening a non-empty list of shares of uniform
word length L and reconstructing reproduces the share list when L = 33, or
when L = 20 and the number of shares is not a multiple of 33 (in the
excluded case the flat list is also a multiple of 33 words and the
reconstructor prefers chunk size 33). -/
theorem claim_C8 (wss : List (List String)) (L : Nat) (hne : wss ≠ [])
    (hL : ∀ ws ∈ wss, ws.length = L)
    (hcase : L = 33 ∨ (L = 20 ∧ ¬ (33 ∣ wss.length))) :
    convertWordsToShares wss.flatten =
      .ok (wss.map (fun ws => String.intercalate " " ws)) := by
  rcases hcase with rfl | ⟨rfl, h33⟩
  · exact convertWords_uniform_33 wss hne hL
  · exact convertWords_uniform_20 wss hne hL h33

/-- Witness for the amended C8 at a single concrete 20-word share. -/
theorem claim_C8_witness :
    convertWordsToShares ([List.replicate 20 "a"] : List (List String)).flatten =
      .ok (([List.replicate 20 "a"] : List (List String)).map
        (fun ws => String.intercalate " " ws)) :=
  claim_C8 [List.replicate 20 "a"] 20 (by decide)
    (fun ws hws => by
      rw [List.eq_of_mem_singleton hws, List.length_replicate])
    (Or.inr ⟨rfl, by norm_num⟩)

/-! ### Claims C4 and C9: input normalization -/

/-- Claim C4 (code bug in `readShareMnemonics`): with zero argument tokens
and an auxiliary source supplying no content, the code does not report a
typed empty-input error; it dereferences `mnemonics[0]` on an empty slice,
which is a Go runtime panic. -/
theorem claim_C4_panic :
    readShareMnemonics [] [] = .error (.goPanic "index out of range") := rfl

/-- Claim C9: `readShareMnemonics` branches on the token count — 1 to 19
argument tokens give one lowercased entry per token, 20 or more give a
single entry joining all tokens, zero tokens fall back to the line
source — and whenever the first assembled entry contains no space the
whole list is rerouted through `convertWordsToShares`. -/
theorem claim_C9 (lines args : List String) (h : args ≠ [] ∨ lines ≠ []) :
    readShareMnemonics lines args =
      (let assembled : List String :=
        if 20 ≤ args.length then [goToLower (goJoin args)]
        else if args ≠ [] then args.map goToLower
        else lines.map (fun l => goToLower (goTrim l))
      if goContainsSpace (goTrim (assembled.headD "")) then Except.ok assembled
      else convertWordsToShares assembled) := by
  match args with
  | [] =>
    match lines with
    | [] => exact absurd h (by simp)
    | l :: ls => simp [readShareMnemonics]
  | a :: as =>
    by_cases h19 : 19 ≤ as.length
    · have hc1 : ¬ (as.length + 1 < 20) := by omega
      simp [readShareMnemonics, h19, hc1]
    · have hc1 : as.length + 1 < 20 := by omega
      simp [readShareMnemonics, h19, hc1]

/-- Witness for C9 at one concrete argument token. -/
theorem claim_C9_witness :
    readShareMnemonics [] ["a b"] =
      (let assembled : List String :=
        if 20 ≤ (["a b"] : List String).length then [goToLower (goJoin ["a b"])]
        else if (["a b"] : List String) ≠ [] then ["a b"].map goToLower
        else ([] : List String).map (fun l => goToLower (goTrim l))
      if goContainsSpace (goTrim (assembled.headD "")) then Except.ok assembled
      else convertWordsToShares assembled) :=
  claim_C9 [] ["a b"] (Or.inl (by decide))

/-! ### Claims C5 and C6: group specification parsing -/

/-- Per-token success: an accepted token parses to its pair. -/
theorem parseGroupToken_ok (g : String) (hok : groupTokenOK g = true) :
    parseGroupToken g = .ok (groupTokenVal g) := by
  cases hm : matchGroupToken g with
  | none => simp [groupTokenOK, hm] at hok
  | some p =>
    obtain ⟨t, n⟩ := p
    simp only [groupTokenOK, hm, decide_eq_true_eq] at hok
    simp only [parseGroupToken, groupTokenVal, hm, Option.getD_some]
    rw [if_neg (by omega)]

/-- Per-token failure: a rejected token produces its quoted error. -/
theorem parseGroupToken_err (g : String) (hok : groupTokenOK g = false) :
    parseGroupToken g = .error (.goError (groupTokenMsg g)) := by
  cases hm : matchGroupToken g with
  | none => simp [parseGroupToken, groupTokenMsg, hm]
  | some p =>
    obtain ⟨t, n⟩ := p
    simp only [groupTokenOK, hm, decide_eq_false_iff_not] at hok
    simp only [parseGroupToken, groupTokenMsg, hm]
    rw [if_pos (by omega)]

/-- Per-token bounds: a successfully parsed pair passed the bound check. -/
theorem parseGroupToken_bounds (g : String) (p : Nat × Nat)
    (h : parseGroupToken g = .ok p) : p.1 ≤ p.2 ∧ p.2 ≤ GroupLimit := by
  cases hm : matchGroupToken g with
  | none => simp [parseGroupToken, hm] at h
  | some q =>
    obtain ⟨t, n⟩ := q
    simp only [parseGroupToken, hm] at h
    by_cases hb : t > GroupLimit ∨ n > GroupLimit ∨ t > n
    · rw [if_pos hb] at h; cases h
    · rw [if_neg hb] at h
      cases h
      push_neg at hb
      exact ⟨hb.2.2, hb.2.1⟩

/-- Counterexample to claim C5 as stated: `parseGroups` accepts the token
with threshold 0, violating the claimed lower bound 1 ≤ threshold. -/
theorem claim_C5_cex :
    ∃ pairs, parseGroups ["0of1"] = .ok pairs ∧
      ¬ ∀ p ∈ pairs, 1 ≤ p.1 ∧ p.1 ≤ p.2 ∧ p.2 ≤ GroupLimit := by
  refine ⟨[(0, 1)], rfl, fun hall => ?_⟩
  have h01 := hall (0, 1) (by decide)
  exact absurd h01.1 (by decide)

/-- Claim C5 (amended): every pair returned by a successful `parseGroups`
satisfies threshold ≤ count ≤ GroupLimit; the code does not enforce the
claimed lower bound 1 ≤ threshold. -/
theorem claim_C5 (gs : List String) (pairs : List (Nat × Nat))
    (h : parseGroups gs = .ok pairs) :
    ∀ p ∈ pairs, p.1 ≤ p.2 ∧ p.2 ≤ GroupLimit := by
  induction gs generalizing pairs with
  | nil =>
    simp only [parseGroups, List.mapM_nil] at h
    cases h
    intro p hp
    exact absurd hp (List.not_mem_nil p)
  | cons g gs ih =>
    simp only [parseGroups, List.mapM_cons] at h
    cases hg : parseGroupToken g with
    | error e => rw [hg] at h; cases h
    | ok q =>
      rw [hg] at h
      cases hrest : parseGroups gs with
      | error e =>
        unfold parseGroups at hrest
        rw [hrest] at h
        cases h
      | ok rest =>
        unfold parseGroups at hrest
        rw [hrest] at h
        have hpairs : pairs = q :: rest := (Except.ok.inj h).symm
        subst hpairs
        intro p hp
        rcases List.mem_cons.mp hp with rfl | hp
        · exact parseGroupToken_bounds g p hg
        · exact ih rest hrest p hp

/-- Witness for the amended C5 at the concrete token list `2of3`. -/
theorem claim_C5_witness : (2, 3).1 ≤ (2, 3).2 ∧ (2, 3).2 ≤ GroupLimit :=
  claim_C5 ["2of3"] [(2, 3)] rfl (2, 3) (by decide)

/-- Claim C6: `parseGroups` processes tokens in order; when every token
matches the one-or-two-digit `MofN` pattern and passes the bound checks it
returns one threshold/count pair per token in input order, and otherwise it
stops at the first offending token with an error message quoting that token
verbatim (the quoting is the last conjunct). -/
theorem claim_C6 (gs : List String) :
    ((∀ g ∈ gs, groupTokenOK g = true) →
      parseGroups gs = .ok (gs.map groupTokenVal)) ∧
    (∀ (pre : List String) (g : String) (post : List String),
      gs = pre ++ g :: post → (∀ x ∈ pre, groupTokenOK x = true) →
      groupTokenOK g = false →
      parseGroups gs = .error (.goError (groupTokenMsg g))) ∧
    (∀ g : String, ∃ s t, groupTokenMsg g = s ++ (g ++ t)) := by
  refine ⟨?_, ?_, ?_⟩
  · intro hall
    exact except_mapM_ok parseGroupToken groupTokenVal gs
      (fun a ha => parseGroupToken_ok a (hall a ha))
  · intro pre g post hdec hpre hg
    rw [hdec]
    exact except_mapM_error parseGroupToken groupTokenVal _ pre g post
      (fun a ha => parseGroupToken_ok a (hpre a ha)) (parseGroupToken_err g hg)
  · intro g
    unfold groupTokenMsg
    match matchGroupToken g with
    | none => exact ⟨"invalid group definition: \"", "\"", by
        simp [String.append_assoc]⟩
    | some q =>
      exact ⟨"invalid group format: \"",
        "\" (not \"MofN\", M <= N, N <= " ++ toString GroupLimit ++ ")", by
        simp [String.append_assoc]⟩

/-- Witness for C6: the all-valid branch at `2of3` and the first-offender
branch at `17of20` (count exceeds the group limit). -/
theorem claim_C6_witness :
    parseGroups ["2of3"] = .ok ((["2of3"] : List String).map groupTokenVal) ∧
    parseGroups ["17of20"] = .error (.goError (groupTokenMsg "17of20")) :=
  ⟨(claim_C6 ["2of3"]).1 (by decide),
   (claim_C6 ["17of20"]).2.1 [] "17of20" [] rfl (by simp) (by decide)⟩

/-! ### Helper lemmas: bit arithmetic -/

/-- Concatenating bit fields: when the low field fits in `n` bits, the
shift-and-or the packing loop performs is plain positional arithmetic. -/
theorem shiftLeft_lor_eq_add (a : Nat) {b n : Nat} (hb : b < 2 ^ n) :
    (a <<< n) ||| b = a * 2 ^ n + b := by
  have hdiv : (a * 2 ^ n + b) / 2 ^ n = a := by
    rw [Nat.mul_comm a, Nat.mul_add_div (Nat.two_pow_pos n),
      Nat.div_eq_of_lt hb, Nat.add_zero]
  apply Nat.eq_of_testBit_eq
  intro k
  rw [Nat.testBit_lor, Nat.testBit_shiftLeft]
  rcases Nat.lt_or_ge k n with hlt | hge
  · have hnk : ¬ n ≤ k := Nat.not_le.mpr hlt
    have hmod : (a * 2 ^ n + b) % 2 ^ n = b := by
      rw [Nat.mul_comm a, Nat.mul_add_mod, Nat.mod_eq_of_lt hb]
    have hmod2 := Nat.testBit_mod_two_pow (a * 2 ^ n + b) n k
    rw [hmod] at hmod2
    rw [decide_eq_false hnk, Bool.false_and, Bool.false_or, hmod2,
      decide_eq_true hlt, Bool.true_and]
  · have hbb : b.testBit k = false :=
      Nat.testBit_lt_two_pow
        (Nat.lt_of_lt_of_le hb (Nat.pow_le_pow_right (by norm_num) hge))
    have hsr := Nat.testBit_shiftRight (a * 2 ^ n + b) (i := n) (j := k - n)
    rw [Nat.shiftRight_eq_div_pow, hdiv, Nat.add_sub_cancel' hge] at hsr
    rw [decide_eq_true hge, Bool.true_and, hbb, Bool.or_false, hsr]

/-- Bitwise or keeps values below a power of two. -/
theorem lor_lt_two_pow {a b n : Nat} (ha : a < 2 ^ n) (hb : b < 2 ^ n) :
    (a ||| b) < 2 ^ n := by
  apply Nat.lt_pow_two_of_testBit
  intro k hk
  have hle : (2 : Nat) ^ n ≤ 2 ^ k := Nat.pow_le_pow_right (by norm_num) hk
  rw [Nat.testBit_lor,
    Nat.testBit_lt_two_pow (Nat.lt_of_lt_of_le ha hle),
    Nat.testBit_lt_two_pow (Nat.lt_of_lt_of_le hb hle), Bool.or_false]

/-! ### Helper lemmas: word packing -/

/-- When every word resolves, the packing loop succeeds and computes the
pure left fold. -/
theorem packWords_ok (wl : List String) :
    ∀ (ws : List String) (acc : Nat), (∀ w ∈ ws, w ∈ wl) →
      packWords wl acc ws =
        .ok (ws.foldl (fun a w => (a <<< 11) ||| List.indexOf w wl) acc) := by
  intro ws
  induction ws with
  | nil => intro acc _; rfl
  | cons w ws ih =>
    intro acc h
    have hw : w ∈ wl := h w (List.mem_cons_self _ _)
    simp only [packWords, getWordIndex, if_pos hw, List.foldl_cons]
    exact ih _ (fun x hx => h x (List.mem_cons_of_mem _ hx))

/-- Valid phrases pack to `packIndices`. -/
theorem bip39Entropy_ok (wl pwords : List String)
    (hmem : ∀ w ∈ pwords, w ∈ wl) :
    bip39Entropy wl pwords = .ok (packIndices wl pwords) :=
  packWords_ok wl pwords 0 hmem

/-- The packing loop stops at the first unknown word with the quoting
error. -/
theorem packWords_error (wl : List String) (w : String) (hw : w ∉ wl) :
    ∀ (pre post : List String) (acc : Nat), (∀ v ∈ pre, v ∈ wl) →
      packWords wl acc (pre ++ w :: post) =
        .error (.goError ("invalid mnemonic word \"" ++ w ++ "\"")) := by
  intro pre
  induction pre with
  | nil =>
    intro post acc _
    simp only [List.nil_append, packWords, getWordIndex, if_neg hw]
  | cons v pre ih =>
    intro post acc h
    have hv : v ∈ wl := h v (List.mem_cons_self _ _)
    simp only [List.cons_append, packWords, getWordIndex, if_pos hv]
    exact ih post _ (fun x hx => h x (List.mem_cons_of_mem _ hx))

/-- The packing fold keeps values below the packed bit width. -/
theorem foldl_pack_lt (wl : List String) :
    ∀ (ws : List String) (acc k : Nat), acc < 2 ^ k →
      (∀ w ∈ ws, List.indexOf w wl < 2 ^ 11) →
      ws.foldl (fun a w => (a <<< 11) ||| List.indexOf w wl) acc <
        2 ^ (k + 11 * ws.length) := by
  intro ws
  induction ws with
  | nil =>
    intro acc k hacc _
    simpa using hacc
  | cons w ws ih =>
    intro acc k hacc h
    rw [List.foldl_cons]
    have hstep : (acc <<< 11) ||| List.indexOf w wl < 2 ^ (k + 11) := by
      apply lor_lt_two_pow
      · rw [Nat.shiftLeft_eq, pow_add]
        exact (Nat.mul_lt_mul_right (Nat.two_pow_pos 11)).mpr hacc
      · exact Nat.lt_of_lt_of_le (h w (List.mem_cons_self _ _))
          (Nat.pow_le_pow_right (by norm_num) (by omega))
    have hres := ih _ (k + 11) hstep (fun x hx => h x (List.mem_cons_of_mem _ hx))
    have hexp : k + 11 * (w :: ws).length = k + 11 + 11 * ws.length := by
      simp only [List.length_cons]
      ring
    rw [hexp]
    exact hres

/-- Bound on the packed entropy of a phrase over a 2048-word vocabulary. -/
theorem packIndices_lt (wl pwords : List String) (hwl : wl.length = 2048)
    (hmem : ∀ w ∈ pwords, w ∈ wl) :
    packIndices wl pwords < 2 ^ (11 * pwords.length) := by
  have h := foldl_pack_lt wl pwords 0 0 (by norm_num)
    (fun w hw => by
      rw [show (2 : Nat) ^ 11 = 2048 from rfl, ← hwl]
      exact List.indexOf_lt_length.mpr (hmem w hw))
  simpa using h

/-! ### Helper lemmas: digest bytes are bytes -/

theorem beBytes_lt (size n : Nat) : ∀ b ∈ beBytes size n, b < 256 := by
  intro b hb
  simp only [beBytes, List.mem_map] at hb
  obtain ⟨k, _, rfl⟩ := hb
  exact Nat.mod_lt _ (by norm_num)

theorem sha256_bytes_lt (msg : List Nat) : ∀ b ∈ sha256 msg, b < 256 := by
  intro b hb
  simp only [sha256, List.mem_flatMap] at hb
  obtain ⟨w, _, hbw⟩ := hb
  exact beBytes_lt 4 w b hbw

theorem sha256_headD_lt (msg : List Nat) : (sha256 msg).headD 0 < 256 := by
  cases hs : sha256 msg with
  | nil => simp
  | cons b bs =>
    have hb : b < 256 :=
      sha256_bytes_lt msg b (by rw [hs]; exact List.mem_cons_self _ _)
    simpa using hb

/-- The derived checksum value fits in the checksum bit width. -/
theorem csVal_lt (wl pwords : List String) (i : Nat)
    (hcb : csBits pwords ≤ 8) : csVal wl pwords i < 2 ^ csBits pwords := by
  unfold csVal
  rw [Nat.shiftRight_eq_div_pow]
  apply Nat.div_lt_of_lt_mul
  calc (sha256 _).headD 0 < 256 := sha256_headD_lt _
    _ = 2 ^ 8 := by norm_num
    _ = 2 ^ (8 - csBits pwords + csBits pwords) := by
      rw [Nat.sub_add_cancel hcb]
    _ = 2 ^ (8 - csBits pwords) * 2 ^ csBits pwords := pow_add 2 _ _

/-- The word index the completion loop derives stays below 2^11. -/
theorem completionIdx_lt (wl pwords : List String) (i : Nat)
    (hcb : csBits pwords ≤ 8) (hi : i < 2 ^ (11 - csBits pwords)) :
    (i <<< csBits pwords) + csVal wl pwords i < 2 ^ 11 := by
  have hcsum := csVal_lt wl pwords i hcb
  have hmul : (i + 1) * 2 ^ csBits pwords ≤ 2 ^ 11 := by
    calc (i + 1) * 2 ^ csBits pwords
        ≤ 2 ^ (11 - csBits pwords) * 2 ^ csBits pwords :=
          Nat.mul_le_mul_right _ (by omega)
      _ = 2 ^ (11 - csBits pwords + csBits pwords) := (pow_add 2 _ _).symm
      _ = 2 ^ 11 := by rw [Nat.sub_add_cancel (by omega : csBits pwords ≤ 11)]
  calc (i <<< csBits pwords) + csVal wl pwords i
      < (i <<< csBits pwords) + 2 ^ csBits pwords := Nat.add_lt_add_left hcsum _
    _ = (i + 1) * 2 ^ csBits pwords := by rw [Nat.shiftLeft_eq]; ring
    _ ≤ 2 ^ 11 := hmul

/-! ### Helper lemmas: the completion loop -/

/-- The loop body succeeds on an in-bounds index and returns exactly the
word at the derived index. -/
theorem completionStep_ok (wl pwords : List String) (i : Nat)
    (hidx : (i <<< csBits pwords) + csVal wl pwords i < wl.length) :
    completionStep wl (csBits pwords)
      (((pwords.length + 1) * 11 - csBits pwords) / 8)
      (packIndices wl pwords <<< (11 - csBits pwords)) i =
      .ok (wl.getD ((i <<< csBits pwords) + csVal wl pwords i) "") := by
  have hcv : (sha256 (beBytes (((pwords.length + 1) * 11 - csBits pwords) / 8)
      ((packIndices wl pwords <<< (11 - csBits pwords)) + i))).headD 0 >>>
      (8 - csBits pwords) = csVal wl pwords i := rfl
  simp only [completionStep, hcv, List.getElem?_eq_getElem hidx,
    List.getD_eq_getElem?_getD, Option.getD_some]

/-- Master description of a successful run of `bip39ChecksumWords`: over a
2048-word vocabulary containing every partial-phrase word, the result is
the ordered list, indexed by the enumeration counter, of the vocabulary
words at the derived indices. -/
theorem checksumWords_eq (wl pwords : List String) (hwl : wl.length = 2048)
    (hmem : ∀ w ∈ pwords, w ∈ wl) (hcb : csBits pwords ≤ 8) :
    bip39ChecksumWords wl pwords =
      .ok ((List.range (2 ^ (11 - csBits pwords))).map
        (fun i => wl.getD ((i <<< csBits pwords) + csVal wl pwords i) "")) := by
  have hmain : bip39ChecksumWords wl pwords =
      (List.range (2 ^ (11 - csBits pwords))).mapM
        (completionStep wl (csBits pwords)
          (((pwords.length + 1) * 11 - csBits pwords) / 8)
          (packIndices wl pwords <<< (11 - csBits pwords))) := by
    unfold bip39ChecksumWords
    rw [bip39Entropy_ok wl pwords hmem]
    rfl
  rw [hmain]
  refine except_mapM_ok _ _ _ ?_
  intro i hi
  rw [List.mem_range] at hi
  exact completionStep_ok wl pwords i
    (by rw [hwl]; exact completionIdx_lt wl pwords i hcb hi)

/-- Packing an appended final word shifts the partial packing and ors in
the word's index. -/
theorem packIndices_append (wl pwords : List String) (w : String) :
    packIndices wl (pwords ++ [w]) =
      (packIndices wl pwords <<< 11) ||| List.indexOf w wl := by
  unfold packIndices
  rw [List.foldl_append]
  rfl

/-- Appending the word the loop derives for index `i` yields a phrase that
passes the spec-side checksum equality check. -/
theorem completion_valid (wl pwords : List String) (i : Nat)
    (hwl : wl.length = 2048) (hnd : wl.Nodup) (hcb : csBits pwords ≤ 8)
    (hi : i < 2 ^ (11 - csBits pwords)) :
    phraseChecksumValid wl
      (pwords ++ [wl.getD ((i <<< csBits pwords) + csVal wl pwords i) ""]) =
      true := by
  have hcb11 : csBits pwords ≤ 11 := by omega
  have hc : csVal wl pwords i < 2 ^ csBits pwords := csVal_lt wl pwords i hcb
  have hidx11 : (i <<< csBits pwords) + csVal wl pwords i < 2 ^ 11 :=
    completionIdx_lt wl pwords i hcb hi
  have hidxlen : (i <<< csBits pwords) + csVal wl pwords i < wl.length := by
    rw [hwl]
    exact hidx11
  have hw_get : wl.getD ((i <<< csBits pwords) + csVal wl pwords i) "" =
      wl[(i <<< csBits pwords) + csVal wl pwords i] := by
    rw [List.getD_eq_getElem?_getD, List.getElem?_eq_getElem hidxlen,
      Option.getD_some]
  have hiw : List.indexOf
      (wl.getD ((i <<< csBits pwords) + csVal wl pwords i) "") wl =
      (i <<< csBits pwords) + csVal wl pwords i := by
    rw [hw_get]
    exact List.indexOf_getElem hnd _ hidxlen
  have hpack : packIndices wl
      (pwords ++ [wl.getD ((i <<< csBits pwords) + csVal wl pwords i) ""]) =
      packIndices wl pwords * 2 ^ 11 +
        ((i <<< csBits pwords) + csVal wl pwords i) := by
    rw [packIndices_append, hiw, shiftLeft_lor_eq_add _ hidx11]
  have hsplit : packIndices wl pwords * 2 ^ 11 +
      ((i <<< csBits pwords) + csVal wl pwords i) =
      2 ^ csBits pwords *
        (packIndices wl pwords * 2 ^ (11 - csBits pwords) + i) +
        csVal wl pwords i := by
    have h2 : (2 : Nat) ^ 11 = 2 ^ (11 - csBits pwords) * 2 ^ csBits pwords := by
      rw [← pow_add, Nat.sub_add_cancel hcb11]
    rw [Nat.shiftLeft_eq, h2]
    ring
  have hmod : packIndices wl
      (pwords ++ [wl.getD ((i <<< csBits pwords) + csVal wl pwords i) ""]) %
      2 ^ csBits pwords = csVal wl pwords i := by
    rw [hpack, hsplit, Nat.mul_add_mod, Nat.mod_eq_of_lt hc]
  have hdiv : packIndices wl
      (pwords ++ [wl.getD ((i <<< csBits pwords) + csVal wl pwords i) ""]) >>>
      csBits pwords =
      (packIndices wl pwords <<< (11 - csBits pwords)) + i := by
    rw [hpack, hsplit, Nat.shiftRight_eq_div_pow,
      Nat.mul_add_div (Nat.two_pow_pos _), Nat.div_eq_of_lt hc, Nat.add_zero,
      Nat.shiftLeft_eq]
  have hlen : (pwords ++
      [wl.getD ((i <<< csBits pwords) + csVal wl pwords i) ""]).length =
      pwords.length + 1 := by
    simp
  have hcb3 : (pwords.length + 1) / 3 = csBits pwords := rfl
  simp only [phraseChecksumValid, hlen]
  rw [hcb3, hmod, hdiv]
  exact beq_self_eq_true _

/-! ### Claims C1, C2, C3 and C10: checksum completion -/

/-- Claim C1: on a 2048-word duplicate-free vocabulary containing every
word of the partial phrase, `bip39ChecksumWords` returns exactly 128 words
for an 11-word phrase and exactly 8 for a 23-word phrase, and appending
any returned word produces a full phrase whose trailing checksum bits
equal the top checksum bits of the first byte of SHA-256 of its entropy
bytes. -/
theorem claim_C1 (wl pwords : List String) (hwl : wl.length = 2048)
    (hnd : wl.Nodup) (hmem : ∀ w ∈ pwords, w ∈ wl)
    (hlen : pwords.length = 11 ∨ pwords.length = 23) :
    ∃ ws, bip39ChecksumWords wl pwords = .ok ws ∧
      (pwords.length = 11 → ws.length = 128) ∧
      (pwords.length = 23 → ws.length = 8) ∧
      ∀ w ∈ ws, phraseChecksumValid wl (pwords ++ [w]) = true := by
  have hcb : csBits pwords ≤ 8 := by
    rcases hlen with h | h <;> simp [csBits, h]
  refine ⟨_, checksumWords_eq wl pwords hwl hmem hcb, ?_, ?_, ?_⟩
  · intro h11
    simp [csBits, h11]
  · intro h23
    simp [csBits, h23]
  · intro w hw
    simp only [List.mem_map, List.mem_range] at hw
    obtain ⟨i, hi, rfl⟩ := hw
    exact completion_valid wl pwords i hwl hnd hcb hi

/-- Claim C2: the candidate list is ordered by the enumeration index, one
entry per index below `2 ^ unknownBits`, and its i-th entry is the
vocabulary word at index `(i <<< checksumBits) ||| c` where `c` is the top
`checksumBits` bits of the first byte of SHA-256 over the big-endian
`entropySize`-byte rendering of `(packedEntropy <<< unknownBits) + i`. -/
theorem claim_C2 (wl pwords : List String) (i : Nat)
    (hwl : wl.length = 2048) (hmem : ∀ w ∈ pwords, w ∈ wl)
    (hlen : pwords.length = 11 ∨ pwords.length = 23)
    (hi : i < 2 ^ (11 - csBits pwords)) :
    ∃ ws, bip39ChecksumWords wl pwords = .ok ws ∧
      ws.length = 2 ^ (11 - csBits pwords) ∧
      ws[i]? = wl[(i <<< csBits pwords) ||| csVal wl pwords i]? := by
  have hcb : csBits pwords ≤ 8 := by
    rcases hlen with h | h <;> simp [csBits, h]
  have hc : csVal wl pwords i < 2 ^ csBits pwords := csVal_lt wl pwords i hcb
  have hor : (i <<< csBits pwords) ||| csVal wl pwords i =
      (i <<< csBits pwords) + csVal wl pwords i := by
    rw [shiftLeft_lor_eq_add i hc, ← Nat.shiftLeft_eq]
  have hidxlen : (i <<< csBits pwords) + csVal wl pwords i < wl.length := by
    rw [hwl]
    exact completionIdx_lt wl pwords i hcb hi
  refine ⟨_, checksumWords_eq wl pwords hwl hmem hcb, by simp, ?_⟩
  rw [hor]
  rw [List.getElem?_map, List.getElem?_range hi]
  simp only [Option.map_some', List.getD_eq_getElem?_getD,
    List.getElem?_eq_getElem hidxlen, Option.getD_some]

/-- Claim C3: a partial phrase containing an unknown word (here: the first
offending word, every word before it being valid) makes
`bip39ChecksumWords`, via `bip39Entropy`, return the invalid-word error
naming that word, with no candidate words. -/
theorem claim_C3 (wl : List String) (pre post : List String) (w : String)
    (hpre : ∀ v ∈ pre, v ∈ wl) (hw : w ∉ wl) :
    bip39ChecksumWords wl (pre ++ w :: post) =
      .error (.goError ("invalid mnemonic word \"" ++ w ++ "\"")) := by
  unfold bip39ChecksumWords bip39Entropy
  rw [packWords_error wl w hw pre post 0 hpre]

/-- Claim C10: for every valid 11- or 23-word partial phrase and every
enumeration index, the derived word index is strictly below 2048, so the
vocabulary lookup is in bounds and the loop never takes its out-of-range
branch — the whole run returns ok. -/
theorem claim_C10 (wl pwords : List String) (hwl : wl.length = 2048)
    (hmem : ∀ w ∈ pwords, w ∈ wl)
    (hlen : pwords.length = 11 ∨ pwords.length = 23) :
    (∀ i, i < 2 ^ (11 - csBits pwords) →
      (i <<< csBits pwords) + csVal wl pwords i < 2048) ∧
    ∃ ws, bip39ChecksumWords wl pwords = .ok ws := by
  have hcb : csBits pwords ≤ 8 := by
    rcases hlen with h | h <;> simp [csBits, h]
  refine ⟨fun i hi => ?_, ⟨_, checksumWords_eq wl pwords hwl hmem hcb⟩⟩
  have := completionIdx_lt wl pwords i hcb hi
  omega

/-! ### Concrete vocabulary facts and witnesses -/

theorem vocabW_length : vocabW.length = 2048 := by
  simp [vocabW]

theorem vocabW_nodup : vocabW.Nodup := by
  have hinj : Function.Injective (fun n => String.mk (List.replicate n 'a')) := by
    intro m n hmn
    have h2 : List.replicate m 'a' = List.replicate n 'a' :=
      congrArg String.data hmn
    have hl := congrArg List.length h2
    simpa using hl
  exact List.Nodup.map hinj (List.nodup_range 2048)

theorem emptyStr_mem_vocabW : String.mk [] ∈ vocabW := by
  simp only [vocabW, List.mem_map]
  exact ⟨0, List.mem_range.mpr (by norm_num), rfl⟩

theorem replicate11_mem (w : String)
    (hw : w ∈ List.replicate 11 (String.mk [])) : w ∈ vocabW := by
  rw [List.eq_of_mem_replicate hw]
  exact emptyStr_mem_vocabW

/-- Witness for C1 at the concrete 11-word phrase of empty-string words
over the concrete 2048-entry vocabulary. -/
theorem claim_C1_witness :
    ∃ ws, bip39ChecksumWords vocabW (List.replicate 11 (String.mk [])) =
        .ok ws ∧
      ((List.replicate 11 (String.mk [])).length = 11 → ws.length = 128) ∧
      ((List.replicate 11 (String.mk [])).length = 23 → ws.length = 8) ∧
      ∀ w ∈ ws, phraseChecksumValid vocabW
        (List.replicate 11 (String.mk []) ++ [w]) = true :=
  claim_C1 vocabW _ vocabW_length vocabW_nodup replicate11_mem
    (Or.inl (List.length_replicate _ _))

/-- Witness for C2 at enumeration index 0 of the same concrete phrase. -/
theorem claim_C2_witness :
    ∃ ws, bip39ChecksumWords vocabW (List.replicate 11 (String.mk [])) =
        .ok ws ∧
      ws.length = 2 ^ (11 - csBits (List.replicate 11 (String.mk []))) ∧
      ws[0]? = vocabW[(0 <<< csBits (List.replicate 11 (String.mk []))) |||
        csVal vocabW (List.replicate 11 (String.mk [])) 0]? :=
  claim_C2 vocabW _ 0 vocabW_length replicate11_mem
    (Or.inl (List.length_replicate _ _)) (Nat.two_pow_pos _)

/-- Witness for C3: one valid word followed by a word outside the
vocabulary. -/
theorem claim_C3_witness :
    bip39ChecksumWords ["a"] (["a"] ++ "b" :: []) =
      .error (.goError ("invalid mnemonic word \"" ++ "b" ++ "\"")) :=
  claim_C3 ["a"] ["a"] [] "b" (by simp) (by decide)

/-- Witness for C10 at the same concrete phrase. -/
theorem claim_C10_witness :
    (∀ i, i < 2 ^ (11 - csBits (List.replicate 11 (String.mk []))) →
      (i <<< csBits (List.replicate 11 (String.mk []))) +
        csVal vocabW (List.replicate 11 (String.mk [])) i < 2048) ∧
    ∃ ws, bip39ChecksumWords vocabW (List.replicate 11 (String.mk [])) =
      .ok ws :=
  claim_C10 vocabW _ vocabW_length replicate11_mem
    (Or.inl (List.length_replicate _ _))

end Seedkit
